import Mathlib

/-!
# Verification of the clash-subscription merge engine

Shallow embedding of the core of `src/scripts/re-new-clash-sub.ts`:
the hy2 descriptor parser, the name-identity proxy merge, and the two
routing-group reorder variants (full document and supplemental-only),
together with theorems settling the specified properties.
-/

set_option maxHeartbeats 1000000

namespace ClashSub

/-- A proxy record, mirroring the `Proxy` interface of the source
(`name`, `server`, `port`, `type`, `password`, `sni`, `skip-cert-verify`).
`sni` is optional because the regex capture group may be absent. -/
structure Proxy where
  name : String
  server : String
  port : Nat
  type : String
  password : String
  sni : Option String
  skipCertVerify : Bool
deriving Repr, DecidableEq

/-- A routing group, mirroring the member objects of `proxy-groups`
(`name`, `type`, `proxies`); the opaque passthrough fields are not
touched by the engine and are omitted. -/
structure RoutingGroup where
  name : String
  type : String
  proxies : List String
deriving Repr, DecidableEq

/-- The subscription document, mirroring the `ClashConfig` interface
(`proxies`, `proxy-groups`, `rules`). -/
structure ClashConfig where
  proxies : List Proxy
  proxyGroups : List RoutingGroup
  rules : List String
deriving Repr, DecidableEq

/-! ## Merge engine

Source lines (re-new-clash-sub.ts 130–136):
```
content.proxies = content.proxies.filter(
  (proxy) => !hy2ConfigList.some((hy2Proxy) => hy2Proxy.name === proxy.name)
)
content.proxies = hy2ConfigList.concat(content.proxies);
```
-/

/-- Base proxies whose name collides with a supplemental name are removed,
then the supplemental list is prepended. -/
def mergeProxies (hy2ConfigList : List Proxy) (base : List Proxy) : List Proxy :=
  hy2ConfigList ++ base.filter (fun proxy => ! hy2ConfigList.any (fun h => h.name == proxy.name))

/-- C2: the merged proxies list is the supplemental list followed by the base
list with name-colliding records removed; with disjoint names it is exactly
`S ++ B`; the surviving base records form a sublist of the base (relative
order kept); a base record is absent only because of a name collision. -/
theorem mergeProxies_spec (B S : List Proxy) :
    mergeProxies S B
        = S ++ B.filter (fun p => ! S.any (fun h => h.name == p.name))
    ∧ ((∀ p ∈ B, ∀ s ∈ S, s.name ≠ p.name) → mergeProxies S B = S ++ B)
    ∧ List.Sublist (B.filter (fun p => ! S.any (fun h => h.name == p.name))) B
    ∧ (∀ p ∈ B, (¬ ∃ s ∈ S, s.name = p.name) → p ∈ mergeProxies S B) := by
  refine ⟨rfl, ?_, List.filter_sublist B, ?_⟩
  · intro hdisj
    unfold mergeProxies
    congr 1
    apply List.filter_eq_self.mpr
    intro p hp
    simp only [Bool.not_eq_eq_eq_not, Bool.not_true, List.any_eq_false]
    intro s hs
    simpa using hdisj p hp s hs
  · intro p hp hnone
    unfold mergeProxies
    apply List.mem_append_right
    apply List.mem_filter.mpr
    refine ⟨hp, ?_⟩
    simp only [Bool.not_eq_eq_eq_not, Bool.not_true, List.any_eq_false]
    intro s hs
    simp only [beq_iff_eq]
    exact fun h => hnone ⟨s, hs, h⟩

/-- Closed instance of `mergeProxies_spec`: the disjoint-name branch at a
concrete base and supplemental list. -/
theorem mergeProxies_spec_witness :
    mergeProxies
        [{ name := "X", server := "h", port := 1, type := "hysteria2",
           password := "p", sni := none, skipCertVerify := false }]
        [{ name := "A", server := "s", port := 2, type := "ss",
           password := "q", sni := none, skipCertVerify := true }]
      = [{ name := "X", server := "h", port := 1, type := "hysteria2",
           password := "p", sni := none, skipCertVerify := false },
         { name := "A", server := "s", port := 2, type := "ss",
           password := "q", sni := none, skipCertVerify := true }] :=
  (mergeProxies_spec
      [{ name := "A", server := "s", port := 2, type := "ss",
         password := "q", sni := none, skipCertVerify := true }]
      [{ name := "X", server := "h", port := 1, type := "hysteria2",
         password := "p", sni := none, skipCertVerify := false }]).2.1
    (by decide)

/-- C8: merging the same supplemental list a second time into an already
merged result returns the very same sequence (hence the same multiset of
names). -/
theorem mergeProxies_idem (B S : List Proxy) :
    mergeProxies S (mergeProxies S B) = mergeProxies S B := by
  unfold mergeProxies
  rw [List.filter_append, List.filter_filter]
  have hS : S.filter (fun p => ! S.any (fun h => h.name == p.name)) = [] := by
    apply List.filter_eq_nil_iff.mpr
    intro s hs
    simp only [Bool.not_eq_eq_eq_not, Bool.not_true, Bool.not_eq_false, List.any_eq_true]
    exact ⟨s, hs, by simp⟩
  rw [hS]
  simp [Bool.and_self]

/-! ## Tag classification and string inclusion

JavaScript's `String.prototype.includes` is a substring-containment test;
`isPre` and `containsSub` give it an executable model on character lists. -/

/-- `isPre a b` is true when `a` is a prefix of `b`. -/
def isPre : List Char → List Char → Bool
  | [], _ => true
  | _ :: _, [] => false
  | a :: as, b :: bs => a == b && isPre as bs

/-- `containsSub sub s` is true when `sub` occurs as a contiguous substring
of `s` (the semantics of JS `s.includes(sub)`). -/
def containsSub (sub : List Char) : List Char → Bool
  | [] => isPre sub []
  | c :: cs => isPre sub (c :: cs) || containsSub sub cs

/-- JS `s.includes(sub)` on the string model. -/
def jsIncludes (s sub : String) : Bool :=
  containsSub sub.data s.data

/-- Source line 148: a member name is moved forward when
`name.includes("G") || name.includes("E") && name !== "DIRECT"`
(JS `&&` binds tighter than `||`). -/
def taggedName (name : String) : Bool :=
  jsIncludes name "G" || (jsIncludes name "E" && name != "DIRECT")

theorem isPre_iff (a b : List Char) : isPre a b = true ↔ a <+: b := by
  induction a generalizing b with
  | nil => simp [isPre]
  | cons x xs ih =>
    cases b with
    | nil => simp [isPre]
    | cons y ys =>
      simp only [isPre, Bool.and_eq_true, beq_iff_eq, ih, List.cons_prefix_cons]

theorem containsSub_iff (sub s : List Char) : containsSub sub s = true ↔ sub <:+: s := by
  induction s with
  | nil =>
    cases sub with
    | nil => simp [containsSub, isPre]
    | cons x xs => simp [containsSub, isPre]
  | cons c cs ih =>
    simp only [containsSub, Bool.or_eq_true, isPre_iff, ih, List.infix_cons_iff]

/-! ## Group reordering engine

Source lines 141–169 (full-document variant) and 171–187
(supplemental-only variant). -/

/-- The `while (groupsName.includes(checkNameTemp)) insertPlace++` scan:
number of leading members that are themselves known group names.  Reading
past the end yields JS `undefined`, for which `includes` is false, so the
scan stops at the end of the list. -/
def scanCursor (groupsName : List String) : List String → Nat
  | [] => 0
  | n :: rest => if groupsName.contains n then scanCursor groupsName rest + 1 else 0

/-- JS `Array.prototype.splice(start, deleteCount, ...items)` for
`start ≤ l.length`: deletes `deleteCount` elements at `start` (clamped to
the available tail) and inserts `items` there. -/
def jsSplice (l : List String) (start deleteCount : Nat) (items : List String) : List String :=
  l.take start ++ items ++ l.drop (start + deleteCount)

/-- Elements of `l` not already in `seen`, keeping the first occurrence of
each element: the insertion-order behaviour of a JS `Set`. -/
def dedupFirstAux (seen : List String) : List String → List String
  | [] => []
  | x :: xs =>
      if seen.contains x then dedupFirstAux seen xs
      else x :: dedupFirstAux (x :: seen) xs

/-- JS `[...new Set(l)]`: deduplication keeping the first occurrence of each
element, in first-seen order. -/
def dedupFirst (l : List String) : List String :=
  dedupFirstAux [] l

/-- Full-document reorder of one group's member list (source lines 142–168):
groups of size ≤ 3 are untouched; otherwise the tagged members are removed,
the cursor scan skips leading group names, and
`proxies.splice(insertPlace, insertPlace, ...hy2Names, ...gameGroup)` is
applied (note the deleteCount equals the cursor), then dedup. -/
def reorderGroupFull (groupsName hy2Names members : List String) : List String :=
  if members.length ≤ 3 then members
  else
    let gameGroup := members.filter taggedName
    let otherGroup := members.filter (fun n => ! taggedName n)
    let insertPlace := scanCursor groupsName otherGroup
    dedupFirst (jsSplice otherGroup insertPlace insertPlace (hy2Names ++ gameGroup))

/-- Modelled from the spec: the same reorder but with the splice performed
as the spec describes it — “an insert, not a replace” (deleteCount 0) —
for comparison with `reorderGroupFull`, which is translated from the source. -/
def reorderGroupFullSpec (groupsName hy2Names members : List String) : List String :=
  if members.length ≤ 3 then members
  else
    let gameGroup := members.filter taggedName
    let otherGroup := members.filter (fun n => ! taggedName n)
    let insertPlace := scanCursor groupsName otherGroup
    dedupFirst (jsSplice otherGroup insertPlace 0 (hy2Names ++ gameGroup))

/-- The `while` loop of the supplemental-only variant (source lines
176–183): collect the leading members that are known group names. -/
def collectGroupPrefix (groupsName : List String) : List String → List String
  | [] => []
  | n :: rest =>
      if groupsName.contains n then n :: collectGroupPrefix groupsName rest else []

/-- Supplemental-only reorder of one group's member list (source lines
171–187): groups of size ≤ 3 are untouched; otherwise the members become the
group-name prefix followed by the supplemental proxy names. -/
def reorderGroupOnly (groupsName hy2Names members : List String) : List String :=
  if members.length ≤ 3 then members
  else collectGroupPrefix groupsName members ++ hy2Names

theorem collectGroupPrefix_eq_takeWhile (gn l : List String) :
    collectGroupPrefix gn l = l.takeWhile (fun n => gn.contains n) := by
  induction l with
  | nil => rfl
  | cons x xs ih =>
    simp only [collectGroupPrefix, List.takeWhile_cons]
    by_cases h : gn.contains x = true
    · rw [if_pos h, if_pos h, ih]
    · rw [if_neg h, if_neg h]

/-- C5: a member name is tagged iff it contains the substring "G", or it
contains "E" and differs from the literal "DIRECT"; the two filters used by
the reorder are order-preserving sublists of the members and partition it
(their lengths sum to the whole). -/
theorem taggedName_partition (members : List String) (name : String) :
    (taggedName name = true ↔
      ("G".data <:+: name.data ∨ ("E".data <:+: name.data ∧ name ≠ "DIRECT")))
    ∧ List.Sublist (members.filter taggedName) members
    ∧ List.Sublist (members.filter (fun n => ! taggedName n)) members
    ∧ (members.filter taggedName).length
        + (members.filter (fun n => ! taggedName n)).length = members.length := by
  refine ⟨?_, List.filter_sublist members, List.filter_sublist members,
    (List.length_eq_length_filter_add taggedName).symm⟩
  unfold taggedName jsIncludes
  simp only [Bool.or_eq_true, Bool.and_eq_true, containsSub_iff, bne_iff_ne, ne_eq]

/-- C6: both reorder variants leave a group with at most 3 members exactly
unchanged, and the cursor scan on an empty member list stops at position 0. -/
theorem reorder_small_identity (gn hy2 members : List String)
    (h : members.length ≤ 3) :
    reorderGroupFull gn hy2 members = members
    ∧ reorderGroupOnly gn hy2 members = members
    ∧ scanCursor gn ([] : List String) = 0 := by
  refine ⟨?_, ?_, rfl⟩ <;> simp [reorderGroupFull, reorderGroupOnly, h]

/-- Closed instance of `reorder_small_identity` at a concrete small group. -/
theorem reorder_small_identity_witness :
    reorderGroupFull ["g"] ["X"] ["A"] = ["A"]
    ∧ reorderGroupOnly ["g"] ["X"] ["A"] = ["A"]
    ∧ scanCursor ["g"] ([] : List String) = 0 :=
  reorder_small_identity ["g"] ["X"] ["A"] (by decide)

/-- C7: on a group of more than 3 members the supplemental-only reorder
returns the maximal group-name prefix followed by the supplemental names,
and every surviving name is either a supplemental name or an original
member that is a known group name. -/
theorem reorderGroupOnly_spec (gn hy2 members : List String)
    (h : 3 < members.length) :
    reorderGroupOnly gn hy2 members
        = members.takeWhile (fun n => gn.contains n) ++ hy2
    ∧ ∀ n ∈ reorderGroupOnly gn hy2 members,
        n ∈ hy2 ∨ (n ∈ members ∧ gn.contains n = true) := by
  have hif : ¬ members.length ≤ 3 := by omega
  constructor
  · simp [reorderGroupOnly, hif, collectGroupPrefix_eq_takeWhile]
  · intro n hn
    simp only [reorderGroupOnly, if_neg hif, List.mem_append] at hn
    rcases hn with hn | hn
    · right
      rw [collectGroupPrefix_eq_takeWhile] at hn
      exact ⟨(List.takeWhile_prefix _).sublist.subset hn, List.mem_takeWhile_imp hn⟩
    · left; exact hn

/-- Closed instance of `reorderGroupOnly_spec` at a concrete group. -/
theorem reorderGroupOnly_spec_witness :
    reorderGroupOnly ["g"] ["X"] ["g", "a", "b", "c"]
      = (["g", "a", "b", "c"].takeWhile (fun n => ["g"].contains n)) ++ ["X"] :=
  (reorderGroupOnly_spec ["g"] ["X"] ["g", "a", "b", "c"] (by decide)).1

/-- C1: the splice of the full-document reorder is not insert-only.  With
one leading group name the cursor is 1 and
`proxies.splice(insertPlace, insertPlace, ...)` deletes the existing
untagged member "A"; the insert-only reading of the spec
(`reorderGroupFullSpec`) keeps it. -/
theorem reorderGroupFull_deletes_at_cursor :
    reorderGroupFull ["g1"] ["X"] ["g1", "A", "B", "C"] = ["g1", "X", "B", "C"]
    ∧ reorderGroupFullSpec ["g1"] ["X"] ["g1", "A", "B", "C"]
        = ["g1", "X", "A", "B", "C"]
    ∧ "A" ∉ reorderGroupFull ["g1"] ["X"] ["g1", "A", "B", "C"]
    ∧ reorderGroupFull ["g1"] ["X"] ["g1", "A", "B", "C"]
        ≠ reorderGroupFullSpec ["g1"] ["X"] ["g1", "A", "B", "C"] := by
  decide

/-! ## Run pipeline (content transformation)

Model of the pure transformation of source lines 81–195: clone for the
supplemental-only variant, prepend extra rules, merge proxies, reorder the
groups of both variants.  `JSON.parse` and the array spread are platform
primitives; their joint outcome on the extra-rules text is modelled by
`JsonOutcome`, one constructor per JSON value class with distinct spread
behaviour. -/

/-- Modelled from the spec and the JS platform semantics of `JSON.parse`
and spread, which are not code of this repository: parsing the extra-rules
text either throws (invalid JSON), yields an array (its elements are the
rule strings), yields a string (strings are iterable, so the spread
produces the individual characters), or yields a number, boolean, null or
plain object (not iterable: the spread throws a TypeError caught by the
same handler). -/
inductive JsonOutcome where
  | throws
  | arr (elems : List String)
  | str (s : String)
  | nonIterable
deriving Repr, DecidableEq

/-- Source lines 84–91: `content.rules.unshift(...JSON.parse(text))` inside
`try`/`catch`.  A parse error or a non-iterable parsed value throws, the
error is logged and the rules are left untouched; an array prepends its
elements in order; a string prepends its individual characters
(one-character strings) silently. -/
def applyAdditionalRules (parsed : JsonOutcome) (rules : List String) :
    List String :=
  match parsed with
  | .throws => rules
  | .arr extra => extra ++ rules
  | .str s => s.data.map (fun c => String.mk [c]) ++ rules
  | .nonIterable => rules

/-- The document transformation of one run.  `additionalRules` is `none`
when the extra-rules input is absent, `some parsed` with the modelled parse
outcome otherwise; `hy2` is `none` when no supplemental input is configured,
`some hy2ConfigList` the parsed/loaded supplemental proxies otherwise.
Returns the full merged document and the optional supplemental-only one. -/
def processContent (content : ClashConfig) (needOnlyHy2 : Bool)
    (additionalRules : Option JsonOutcome)
    (hy2 : Option (List Proxy)) : ClashConfig × Option ClashConfig :=
  let onlyHy2Content := if needOnlyHy2 then some content else none
  let content1 : ClashConfig :=
    match additionalRules with
    | none => content
    | some parsed => { content with rules := applyAdditionalRules parsed content.rules }
  match hy2 with
  | none => (content1, onlyHy2Content)
  | some hy2ConfigList =>
      let content2 := { content1 with proxies := mergeProxies hy2ConfigList content1.proxies }
      let onlyHy2Content1 := onlyHy2Content.map (fun c => { c with proxies := hy2ConfigList })
      let groupsName := content2.proxyGroups.map (fun g => g.name)
      let hy2Names := hy2ConfigList.map (fun p => p.name)
      let newGroups := content2.proxyGroups.map (fun g =>
        { g with proxies := reorderGroupFull groupsName hy2Names g.proxies })
      let content3 := { content2 with proxyGroups := newGroups }
      let onlyHy2Content2 := onlyHy2Content1.map (fun c =>
        { c with proxyGroups := c.proxyGroups.map (fun g =>
            { g with proxies := reorderGroupOnly groupsName hy2Names g.proxies }) })
      (content3, onlyHy2Content2)

/-- A parse error, and likewise a non-iterable parsed value, is recovered
locally: the whole run proceeds exactly as if no extra rules had been
supplied (rules, merge, reorder and both outputs unaffected). -/
theorem additionalRules_recovery (content : ClashConfig) (needOnlyHy2 : Bool)
    (hy2 : Option (List Proxy)) :
    processContent content needOnlyHy2 (some JsonOutcome.throws) hy2
        = processContent content needOnlyHy2 none hy2
    ∧ processContent content needOnlyHy2 (some JsonOutcome.nonIterable) hy2
        = processContent content needOnlyHy2 none hy2 := by
  cases hy2 <;>
    exact ⟨rfl, rfl⟩

/-- C9: the recovery is not complete.  A JSON string literal is not a valid
literal list, yet `JSON.parse` succeeds on it and the spread silently
prepends the string's individual characters: the rules change and no error
is raised, against the claim's "rules left exactly unchanged".  A parse
error is recovered as claimed and a valid list prepends its elements. -/
theorem additionalRules_string_spread :
    applyAdditionalRules (JsonOutcome.str "DOMAIN,x.com,DIRECT") ["MATCH,DIRECT"]
        = ["D", "O", "M", "A", "I", "N", ",", "x", ".", "c", "o", "m", ",",
           "D", "I", "R", "E", "C", "T", "MATCH,DIRECT"]
    ∧ applyAdditionalRules (JsonOutcome.str "DOMAIN,x.com,DIRECT") ["MATCH,DIRECT"]
        ≠ ["MATCH,DIRECT"]
    ∧ (processContent ⟨[], [], ["MATCH,DIRECT"]⟩ false
          (some (JsonOutcome.str "DOMAIN,x.com,DIRECT")) none).1.rules
        ≠ ["MATCH,DIRECT"]
    ∧ applyAdditionalRules JsonOutcome.throws ["MATCH,DIRECT"] = ["MATCH,DIRECT"]
    ∧ applyAdditionalRules (JsonOutcome.arr ["RULE"]) ["MATCH,DIRECT"]
        = ["RULE", "MATCH,DIRECT"] := by
  decide

/-- C10: the supplemental-only document keeps the base document's original
rules whatever the extra-rules parse outcome was — a throw, an array, a
string spread into characters, or a non-iterable value — because the clone
is taken before the prepend; the full document receives the parsed extra
rules. -/
theorem onlyHy2_rules_frame (content : ClashConfig)
    (additionalRules : Option JsonOutcome)
    (hy2 : Option (List Proxy)) (xs : List String) :
    (processContent content true additionalRules hy2).2.map (fun c => c.rules)
        = some content.rules
    ∧ (processContent content true (some (JsonOutcome.arr xs)) hy2).1.rules
        = xs ++ content.rules := by
  cases hy2 <;> cases additionalRules <;>
    exact ⟨rfl, rfl⟩

/-! ## Descriptor parser

Source lines 99–112: the regex
`hy2:\/\/([^@]+)@([^:]+):(\d+)\?(?:insecure=(\d))?(?:&sni=([^#\n]+))?#([^#\n]+)`
applied with `matchAll` (left to right, non-overlapping), each match mapped
to a proxy record.  The matcher below is the deterministic equivalent of
the regex's greedy/backtracking semantics: the negated character classes
cannot cross their delimiter, so each `[^x]+x` step is "maximal run, then
the delimiter"; the two optional groups are tried and undone explicitly. -/

/-- One regex match: the six capture groups (4 and 5 optional). -/
structure Hy2Match where
  password : List Char
  server : List Char
  portDigits : List Char
  insecure : Option Char
  sni : Option (List Char)
  name : List Char
deriving Repr, DecidableEq

/-- The character class `[^#\n]`. -/
def notHashNl (c : Char) : Bool :=
  c != '#' && c != '\n'

/-- Strip an expected literal prefix, returning the remainder. -/
def stripPre : List Char → List Char → Option (List Char)
  | [], s => some s
  | _ :: _, [] => none
  | p :: ps, c :: cs => if c = p then stripPre ps cs else none

/-- The final `#([^#\n]+)` of the pattern: require `#`, then a nonempty
maximal run for the display name. -/
def matchHash (pw srv pd : List Char) (ins : Option Char) (sni : Option (List Char)) :
    List Char → Option (Hy2Match × List Char)
  | [] => none
  | c :: rest =>
      if c = '#' then
        if (rest.takeWhile notHashNl).isEmpty then none
        else some (⟨pw, srv, pd, ins, sni, rest.takeWhile notHashNl⟩,
                   rest.dropWhile notHashNl)
      else none

/-- The optional group `(?:&sni=([^#\n]+))?`: literal `&sni=`, then a
nonempty maximal run. -/
def trySni (r : List Char) : Option (List Char × List Char) :=
  match stripPre "&sni=".data r with
  | none => none
  | some rest =>
      if (rest.takeWhile notHashNl).isEmpty then none
      else some (rest.takeWhile notHashNl, rest.dropWhile notHashNl)

/-- `(?:&sni=([^#\n]+))?#([^#\n]+)`: try the sni group, undoing it when the
rest of the pattern then fails (regex backtracking over the optional
group; no split inside `[^#\n]+` can expose the required `#`, so undoing
the whole group is the only alternative). -/
def matchSniHash (pw srv pd : List Char) (ins : Option Char) (r : List Char) :
    Option (Hy2Match × List Char) :=
  match trySni r with
  | some (sv, r2) =>
      match matchHash pw srv pd ins (some sv) r2 with
      | some res => some res
      | none => matchHash pw srv pd ins none r
  | none => matchHash pw srv pd ins none r

/-- The optional group `(?:insecure=(\d))?`: literal `insecure=`, then one
digit. -/
def tryInsecure (r : List Char) : Option (Char × List Char) :=
  match stripPre "insecure=".data r with
  | none => none
  | some rest =>
      match rest with
      | [] => none
      | d :: rest2 => if d.isDigit then some (d, rest2) else none

/-- Everything after `?`: optional insecure group (undone on failure of the
rest), optional sni group, then the hash part. -/
def matchQuery (pw srv pd : List Char) (r : List Char) : Option (Hy2Match × List Char) :=
  match tryInsecure r with
  | some (d, r2) =>
      match matchSniHash pw srv pd (some d) r2 with
      | some res => some res
      | none => matchSniHash pw srv pd none r
  | none => matchSniHash pw srv pd none r

/-- `([^@]+)@([^:]+):(\d+)\?` and the rest: each negated class is a maximal
nonempty run stopped by its delimiter. -/
def matchAfterScheme (s : List Char) : Option (Hy2Match × List Char) :=
  match s.dropWhile (fun c => c != '@') with
  | '@' :: r2 =>
      if (s.takeWhile (fun c => c != '@')).isEmpty then none
      else
        match r2.dropWhile (fun c => c != ':') with
        | ':' :: r4 =>
            if (r2.takeWhile (fun c => c != ':')).isEmpty then none
            else
              match r4.dropWhile Char.isDigit with
              | '?' :: r6 =>
                  if (r4.takeWhile Char.isDigit).isEmpty then none
                  else matchQuery (s.takeWhile (fun c => c != '@'))
                        (r2.takeWhile (fun c => c != ':'))
                        (r4.takeWhile Char.isDigit) r6
              | _ => none
        | _ => none
  | _ => none

/-- Attempt one match at the current position: the literal scheme `hy2://`
then the rest of the pattern. -/
def matchHy2At (s : List Char) : Option (Hy2Match × List Char) :=
  match stripPre "hy2://".data s with
  | none => none
  | some rest => matchAfterScheme rest

/-! ### Termination bounds: every successful match consumes at least one
character, and the remainder is a proper suffix. -/

theorem stripPre_length {pre s r : List Char} (h : stripPre pre s = some r) :
    r.length + pre.length = s.length := by
  induction pre generalizing s with
  | nil =>
    simp only [stripPre, Option.some.injEq] at h
    subst h; simp
  | cons p ps ih =>
    cases s with
    | nil => simp [stripPre] at h
    | cons c cs =>
      simp only [stripPre] at h
      split at h
      · have := ih h
        simp only [List.length_cons]
        omega
      · exact absurd h (by simp)

theorem matchHash_length {pw srv pd : List Char} {ins : Option Char}
    {sni : Option (List Char)} {s out : List Char} {m : Hy2Match}
    (h : matchHash pw srv pd ins sni s = some (m, out)) : out.length < s.length := by
  cases s with
  | nil => simp [matchHash] at h
  | cons c cs =>
    simp only [matchHash] at h
    split at h
    · split at h
      · simp at h
      · simp only [Option.some.injEq, Prod.mk.injEq] at h
        obtain ⟨-, hr⟩ := h
        subst hr
        exact Nat.lt_succ_of_le (List.Sublist.length_le (List.dropWhile_sublist _))
    · simp at h

theorem trySni_length {r sv r2 : List Char} (h : trySni r = some (sv, r2)) :
    r2.length < r.length := by
  unfold trySni at h
  split at h
  · simp at h
  · rename_i rest heq
    split at h
    · simp at h
    · simp only [Option.some.injEq, Prod.mk.injEq] at h
      obtain ⟨-, hr⟩ := h
      subst hr
      have h1 := stripPre_length heq
      have h2 : (rest.dropWhile notHashNl).length ≤ rest.length :=
        List.Sublist.length_le (List.dropWhile_sublist _)
      have h5 : ("&sni=".data).length = 5 := rfl
      omega

theorem tryInsecure_length {r r2 : List Char} {d : Char}
    (h : tryInsecure r = some (d, r2)) : r2.length < r.length := by
  unfold tryInsecure at h
  split at h
  · simp at h
  · rename_i rest heq
    have h1 := stripPre_length heq
    have h9 : ("insecure=".data).length = 9 := rfl
    split at h
    · simp at h
    · split at h
      · simp only [Option.some.injEq, Prod.mk.injEq] at h
        obtain ⟨-, hr⟩ := h
        subst hr
        simp only [List.length_cons] at h1
        omega
      · simp at h

theorem matchSniHash_length {pw srv pd : List Char} {ins : Option Char}
    {r out : List Char} {m : Hy2Match}
    (h : matchSniHash pw srv pd ins r = some (m, out)) : out.length < r.length := by
  unfold matchSniHash at h
  split at h
  · rename_i sv r2 heq
    split at h
    · rename_i res heq2
      simp only [Option.some.injEq] at h
      subst h
      exact Nat.lt_trans (matchHash_length heq2) (trySni_length heq)
    · exact matchHash_length h
  · exact matchHash_length h

theorem matchQuery_length {pw srv pd : List Char} {r out : List Char} {m : Hy2Match}
    (h : matchQuery pw srv pd r = some (m, out)) : out.length < r.length := by
  unfold matchQuery at h
  split at h
  · rename_i d r2 heq
    split at h
    · rename_i res heq2
      simp only [Option.some.injEq] at h
      subst h
      exact Nat.lt_trans (matchSniHash_length heq2) (tryInsecure_length heq)
    · exact matchSniHash_length h
  · exact matchSniHash_length h

theorem matchAfterScheme_length {s out : List Char} {m : Hy2Match}
    (h : matchAfterScheme s = some (m, out)) : out.length < s.length := by
  unfold matchAfterScheme at h
  split at h
  · rename_i r2 heq1
    have hr2 : r2.length < s.length := by
      have := List.Sublist.length_le (List.dropWhile_sublist (l := s) (fun c => c != '@'))
      rw [heq1] at this
      simp only [List.length_cons] at this
      omega
    split at h
    · simp at h
    · split at h
      · rename_i r4 heq2
        have hr4 : r4.length < r2.length := by
          have := List.Sublist.length_le (List.dropWhile_sublist (l := r2) (fun c => c != ':'))
          rw [heq2] at this
          simp only [List.length_cons] at this
          omega
        split at h
        · simp at h
        · split at h
          · rename_i r6 heq3
            have hr6 : r6.length < r4.length := by
              have := List.Sublist.length_le (List.dropWhile_sublist (l := r4) Char.isDigit)
              rw [heq3] at this
              simp only [List.length_cons] at this
              omega
            split at h
            · simp at h
            · have := matchQuery_length h
              omega
          · simp at h
      · simp at h
  · simp at h

theorem matchHy2At_length {s out : List Char} {m : Hy2Match}
    (h : matchHy2At s = some (m, out)) : out.length < s.length := by
  unfold matchHy2At at h
  split at h
  · simp at h
  · rename_i rest heq
    have h1 := stripPre_length heq
    have h6 : ("hy2://".data).length = 6 := rfl
    have := matchAfterScheme_length h
    omega

/-! ### The scan: `matchAll` semantics (left to right, non-overlapping;
on failure advance one position).  Fuel keeps the recursion structural;
`s.length` fuel always suffices because a match strictly shrinks the
remainder. -/

def hy2ScanFuel : Nat → List Char → List Hy2Match
  | _, [] => []
  | 0, _ :: _ => []
  | fuel + 1, c :: cs =>
      match matchHy2At (c :: cs) with
      | some (m, rest) => m :: hy2ScanFuel fuel rest
      | none => hy2ScanFuel fuel cs

/-- All matches of the descriptor regex in `s`, in textual order. -/
def hy2Scan (s : List Char) : List Hy2Match :=
  hy2ScanFuel s.length s

theorem hy2ScanFuel_congr : ∀ {fuel fuel' : Nat} {s : List Char},
    s.length ≤ fuel → s.length ≤ fuel' →
    hy2ScanFuel fuel s = hy2ScanFuel fuel' s := by
  intro fuel
  induction fuel with
  | zero =>
    intro fuel' s hf hf'
    have hs : s = [] := List.eq_nil_of_length_eq_zero (Nat.le_zero.mp hf)
    subst hs
    cases fuel' <;> rfl
  | succ f ih =>
    intro fuel' s hf hf'
    cases s with
    | nil => cases fuel' <;> rfl
    | cons c cs =>
      cases fuel' with
      | zero => simp at hf'
      | succ f' =>
        simp only [List.length_cons, Nat.succ_le_succ_iff] at hf hf'
        cases hm : matchHy2At (c :: cs) with
        | some p =>
          obtain ⟨m, rest⟩ := p
          have hlt := matchHy2At_length hm
          simp only [List.length_cons] at hlt
          simp only [hy2ScanFuel, hm]
          exact congrArg (List.cons m) (ih (by omega) (by omega))
        | none =>
          simp only [hy2ScanFuel, hm]
          exact ih hf hf'

theorem hy2Scan_cons_none {c : Char} {cs : List Char}
    (h : matchHy2At (c :: cs) = none) : hy2Scan (c :: cs) = hy2Scan cs := by
  unfold hy2Scan
  simp only [List.length_cons, hy2ScanFuel, h]

theorem hy2Scan_eq_cons {s rest : List Char} {m : Hy2Match}
    (h : matchHy2At s = some (m, rest)) :
    hy2Scan s = m :: hy2Scan rest := by
  cases s with
  | nil => rw [show matchHy2At [] = none from rfl] at h; cases h
  | cons c cs =>
    have hlt := matchHy2At_length h
    simp only [List.length_cons] at hlt
    unfold hy2Scan
    simp only [List.length_cons, hy2ScanFuel, h]
    rw [hy2ScanFuel_congr (by omega) (le_refl rest.length)]

/-! ### From matches to proxy records (source lines 104–112). -/

/-- JS `parseInt(digits)` on the digit-only capture group 3. -/
def parseIntDigits (ds : List Char) : Nat :=
  ds.foldl (fun a c => a * 10 + (c.toNat - '0'.toNat)) 0

/-- One matched descriptor turned into a proxy record:
`skip-cert-verify` is `match[4] === "0"`. -/
def mkProxyFromMatch (m : Hy2Match) : Proxy :=
  { name := ⟨m.name⟩, server := ⟨m.server⟩,
    port := parseIntDigits m.portDigits, type := "hysteria2",
    password := ⟨m.password⟩, sni := m.sni.map (fun l => (⟨l⟩ : String)),
    skipCertVerify := m.insecure == some '0' }

/-- The whole descriptor parser: `[...HY2_CONFIG.matchAll(regex)].map(...)`. -/
def parseHy2Config (s : String) : List Proxy :=
  (hy2Scan s.data).map mkProxyFromMatch

/-! ### The insecure flag (C3) -/

theorem matchHash_insecure {pw srv pd : List Char} {ins : Option Char}
    {sni : Option (List Char)} {s out : List Char} {m : Hy2Match}
    (h : matchHash pw srv pd ins sni s = some (m, out)) : m.insecure = ins := by
  cases s with
  | nil => simp [matchHash] at h
  | cons c cs =>
    simp only [matchHash] at h
    split at h
    · split at h
      · simp at h
      · simp only [Option.some.injEq, Prod.mk.injEq] at h
        obtain ⟨hm, -⟩ := h
        subst hm
        rfl
    · simp at h

theorem matchSniHash_insecure {pw srv pd : List Char} {ins : Option Char}
    {r out : List Char} {m : Hy2Match}
    (h : matchSniHash pw srv pd ins r = some (m, out)) : m.insecure = ins := by
  unfold matchSniHash at h
  split at h
  · split at h
    · rename_i heq2
      simp only [Option.some.injEq] at h
      subst h
      exact matchHash_insecure heq2
    · exact matchHash_insecure h
  · exact matchHash_insecure h

/-- Once the matcher has consumed `insecure=`, the fallback without the
insecure group can never succeed: the remaining pattern needs `&` or `#`
first, and the text starts with `i`. -/
theorem matchSniHash_at_i (pw srv pd : List Char) (ins : Option Char) (r : List Char) :
    matchSniHash pw srv pd ins ('i' :: r) = none := rfl

/-- C3: a descriptor whose query part carries `insecure=0` parses with
capture group 4 = `'0'` and skip-cert-verify `true`; `insecure=1` gives
`false`; an absent insecure group gives capture `none` and `false`. -/
theorem insecure_mapping (pw srv pd q r out : List Char) (m : Hy2Match) :
    (matchQuery pw srv pd ("insecure=0".data ++ r) = some (m, out) →
        m.insecure = some '0' ∧ (mkProxyFromMatch m).skipCertVerify = true)
    ∧ (matchQuery pw srv pd ("insecure=1".data ++ r) = some (m, out) →
        m.insecure = some '1' ∧ (mkProxyFromMatch m).skipCertVerify = false)
    ∧ (tryInsecure q = none → matchQuery pw srv pd q = some (m, out) →
        m.insecure = none ∧ (mkProxyFromMatch m).skipCertVerify = false) := by
  refine ⟨?_, ?_, ?_⟩
  · intro h
    unfold matchQuery at h
    rw [show tryInsecure ("insecure=0".data ++ r) = some ('0', r) from rfl] at h
    split at h
    · rename_i heq
      injection heq with heq1
      injection heq1 with hd hr
      subst hd
      subst hr
      split at h
      · rename_i heq2
        simp only [Option.some.injEq] at h
        subst h
        have hins := matchSniHash_insecure heq2
        refine ⟨hins, ?_⟩
        rw [show (mkProxyFromMatch m).skipCertVerify = (m.insecure == some '0') from rfl, hins]
        decide
      · rw [show "insecure=0".data ++ r = 'i' :: ("nsecure=0".data ++ r) from rfl,
            matchSniHash_at_i] at h
        cases h
    · rename_i heq3
      simp at heq3
  · intro h
    unfold matchQuery at h
    rw [show tryInsecure ("insecure=1".data ++ r) = some ('1', r) from rfl] at h
    split at h
    · rename_i heq
      injection heq with heq1
      injection heq1 with hd hr
      subst hd
      subst hr
      split at h
      · rename_i heq2
        simp only [Option.some.injEq] at h
        subst h
        have hins := matchSniHash_insecure heq2
        refine ⟨hins, ?_⟩
        rw [show (mkProxyFromMatch m).skipCertVerify = (m.insecure == some '0') from rfl, hins]
        decide
      · rw [show "insecure=1".data ++ r = 'i' :: ("nsecure=1".data ++ r) from rfl,
            matchSniHash_at_i] at h
        cases h
    · rename_i heq3
      simp at heq3
  · intro hnone h
    unfold matchQuery at h
    rw [hnone] at h
    have hins := matchSniHash_insecure h
    refine ⟨hins, ?_⟩
    rw [show (mkProxyFromMatch m).skipCertVerify = (m.insecure == some '0') from rfl, hins]
    decide

/-- Closed instance of `insecure_mapping`: a concrete query part with
`insecure=0` produces a record with skip-cert-verify `true`. -/
theorem insecure_mapping_witness :
    (⟨['p'], ['h'], ['1'], some '0', none, ['n']⟩ : Hy2Match).insecure = some '0'
    ∧ (mkProxyFromMatch ⟨['p'], ['h'], ['1'], some '0', none, ['n']⟩).skipCertVerify = true :=
  (insecure_mapping ['p'] ['h'] ['1'] ['x'] ('#' :: 'n' :: []) []
      ⟨['p'], ['h'], ['1'], some '0', none, ['n']⟩).1 (by decide)

/-! ### One record per match, in textual order (C4) -/

/-- Concatenation of (junk, descriptor, match) chunks and trailing text. -/
def assembleChunks : List (List Char × List Char × Hy2Match) → List Char → List Char
  | [], fin => fin
  | (j, d, _) :: rest, fin => j ++ d ++ assembleChunks rest fin

/-- No descriptor match starts at any offset of `t`. -/
def noMatchBelow (t : List Char) : Prop :=
  ∀ i, i < t.length → matchHy2At (t.drop i) = none

instance (t : List Char) : Decidable (noMatchBelow t) :=
  inferInstanceAs (Decidable (∀ i, i < t.length → matchHy2At (t.drop i) = none))

/-- No descriptor match starts inside the junk segment `j` when it is
followed by `tail`. -/
def junkFree (j tail : List Char) : Prop :=
  ∀ i, i < j.length → matchHy2At ((j ++ tail).drop i) = none

instance (j tail : List Char) : Decidable (junkFree j tail) :=
  inferInstanceAs (Decidable (∀ i, i < j.length → matchHy2At ((j ++ tail).drop i) = none))

/-- The input decomposes into N junk/descriptor chunks: each junk segment
is match-free at all of its offsets, each descriptor matches exactly up to
the following chunk, and the trailing text is match-free. -/
def chunksSpec : List (List Char × List Char × Hy2Match) → List Char → Prop
  | [], fin => noMatchBelow fin
  | (j, d, m) :: rest, fin =>
      junkFree j (d ++ assembleChunks rest fin)
      ∧ matchHy2At (d ++ assembleChunks rest fin) = some (m, assembleChunks rest fin)
      ∧ chunksSpec rest fin

instance instDecChunksSpec :
    (chunks : List (List Char × List Char × Hy2Match)) → (fin : List Char) →
      Decidable (chunksSpec chunks fin)
  | [], fin => inferInstanceAs (Decidable (noMatchBelow fin))
  | (_, _, _) :: rest, fin =>
      have := instDecChunksSpec rest fin
      inferInstanceAs (Decidable (_ ∧ _ ∧ chunksSpec rest fin))

theorem hy2Scan_eq_nil {t : List Char} (h : noMatchBelow t) : hy2Scan t = [] := by
  induction t with
  | nil => rfl
  | cons c cs ih =>
    rw [hy2Scan_cons_none (h 0 (Nat.succ_pos _))]
    exact ih (fun i hi => h (i + 1) (Nat.succ_lt_succ hi))

theorem hy2Scan_junk {j : List Char} (tail : List Char) (h : junkFree j tail) :
    hy2Scan (j ++ tail) = hy2Scan tail := by
  induction j with
  | nil => rfl
  | cons c cs ih =>
    have h0 : matchHy2At (c :: (cs ++ tail)) = none := h 0 (Nat.succ_pos _)
    rw [show (c :: cs) ++ tail = c :: (cs ++ tail) from rfl, hy2Scan_cons_none h0]
    exact ih (fun i hi => h (i + 1) (Nat.succ_lt_succ hi))

/-- C4: an input made of N well-formed descriptors with arbitrary
match-free junk interleaved parses to exactly N records, one per match, in
the textual order of the matches. -/
theorem parse_chunks (chunks : List (List Char × List Char × Hy2Match))
    (fin : List Char) (h : chunksSpec chunks fin) :
    hy2Scan (assembleChunks chunks fin) = chunks.map (fun t => t.2.2)
    ∧ parseHy2Config ⟨assembleChunks chunks fin⟩
        = chunks.map (fun t => mkProxyFromMatch t.2.2)
    ∧ (parseHy2Config ⟨assembleChunks chunks fin⟩).length = chunks.length := by
  have hscan : hy2Scan (assembleChunks chunks fin) = chunks.map (fun t => t.2.2) := by
    induction chunks with
    | nil => exact hy2Scan_eq_nil h
    | cons chunk rest ih =>
      obtain ⟨j, d, m⟩ := chunk
      obtain ⟨hj, hd, hrest⟩ := h
      have hasm : assembleChunks ((j, d, m) :: rest) fin
          = j ++ (d ++ assembleChunks rest fin) := by
        simp [assembleChunks]
      rw [hasm, hy2Scan_junk _ hj, hy2Scan_eq_cons hd, ih hrest]
      rfl
  refine ⟨hscan, ?_, ?_⟩
  · show (hy2Scan (assembleChunks chunks fin)).map mkProxyFromMatch = _
    rw [hscan, List.map_map]
    rfl
  · show ((hy2Scan (assembleChunks chunks fin)).map mkProxyFromMatch).length = _
    rw [hscan, List.length_map, List.length_map]

/-- Concrete chunk decomposition: two descriptors with junk before,
between and after them. -/
def c4Chunks : List (List Char × List Char × Hy2Match) :=
  [("hello ".data,
    "hy2://pass@host:443?insecure=0&sni=example#Node1".data,
    ⟨"pass".data, "host".data, "443".data, some '0', some "example".data, "Node1".data⟩),
   ("\njunk hy2:/bad ".data,
    "hy2://p2@h2:80?#N2".data,
    ⟨"p2".data, "h2".data, "80".data, none, none, "N2".data⟩)]

/-- Trailing text for the concrete decomposition. -/
def c4Fin : List Char := "\nend".data

/-- Closed instance of `parse_chunks`: the two-descriptor input parses to
exactly its two records, in order. -/
theorem parse_chunks_witness :
    hy2Scan (assembleChunks c4Chunks c4Fin) = c4Chunks.map (fun t => t.2.2)
    ∧ parseHy2Config ⟨assembleChunks c4Chunks c4Fin⟩
        = c4Chunks.map (fun t => mkProxyFromMatch t.2.2)
    ∧ (parseHy2Config ⟨assembleChunks c4Chunks c4Fin⟩).length = c4Chunks.length :=
  parse_chunks c4Chunks c4Fin (by decide)
